import Mathlib

/-!
Verification of the documentation-generator orchestration core
(`src/doc_generator/main.py`, `crew.py`, `human_in_the_loop.py`,
`geval_metrics.py`, `tools/shared_memory.py`).

Python strings are modelled as lists of characters (`PyStr`), so that
`str.strip`, `str.split('\n')` and `'\n'.join` become plain list
functions that can be reasoned about by induction.  Floating point
scores are modelled as rationals; the score arithmetic the claims are
about (sums, divisions by counts, comparisons with a threshold) is
exact at the inputs considered.
-/

namespace DocGen

/-- Python strings, modelled as lists of characters. -/
abbrev PyStr := List Char

/-- The whitespace class stripped by Python `str.strip()` and matched by
the regex class `\s`: space, tab, newline, carriage return, vertical
tab and form feed. -/
def isPySpace (c : Char) : Bool :=
  c == ' ' || c == '\t' || c == '\n' || c == '\r' || c == '\x0b' || c == '\x0c'

/-- Python `str.strip()`: drop leading and trailing whitespace. -/
def pyStrip (s : PyStr) : PyStr :=
  ((s.dropWhile isPySpace).reverse.dropWhile isPySpace).reverse

/-- Python `str.split('\n')`: split on every newline, keeping empty
pieces.  The result is never empty. -/
def splitNL : PyStr → List PyStr
  | [] => [[]]
  | c :: cs =>
    if c = '\n' then [] :: splitNL cs
    else
      match splitNL cs with
      | [] => [[c]]
      | h :: t => (c :: h) :: t

/-- Python `'\n'.join`. -/
def joinNL : List PyStr → PyStr
  | [] => []
  | [l] => l
  | l :: ls => l ++ '\n' :: joinNL ls

/-!  ## Section Parser (`main.py`, `_split_sections`)

`SECTION_PATTERN = re.compile(r"^===SECTION:\s*(.+?)\s*===$", re.MULTILINE)`.

With `re.MULTILINE`, `^` matches at the start of every line and `$` at
the end of every line (before each `\n` and at the end of the input), so
every match starts at a line start and ends at a line end.  The `\s`
class still matches `\n`, so the two `\s*` segments of the pattern may
span line breaks and a match may cover several lines; only the lazy
group `(.+?)` is confined to one line (`.` does not match `\n`).

The model follows the backtracking engine exactly.  After the literal
`===SECTION:`, the first `\s*` is greedy with backtracking: candidate
capture starts run from the end of the maximal whitespace run backwards
(`startLoop`), skipping starts on a `\n` (the group cannot begin with a
newline).  For each start, the lazy group tries capture lengths from 1
upwards within the line (`capLoop`); after the capture, the second
`\s*` is greedy and deterministic — the literal `===` can only sit at
the end of the maximal whitespace run, since `=` is not whitespace —
followed by the `$` test (`closeMatch`).  The first combination in this
order that succeeds is the match `re.split` uses. -/

/-- The tail test after a capture: skip the maximal whitespace run
(which may cross newlines), require the literal `===`, then `$` (end of
input or a following `\n`).  Returns the text after the match end. -/
def closeMatch (rest : PyStr) : Option PyStr :=
  if ("===".toList).isPrefixOf (rest.dropWhile isPySpace) then
    match (rest.dropWhile isPySpace).drop 3 with
    | [] => some []
    | c :: r2 => if c = '\n' then some (c :: r2) else none
  else none

/-- The lazy group: with `acc` the (reversed) capture so far, first try
to close the match, then extend the capture by one non-newline
character.  Returns the capture and the text after the match end. -/
def capLoop : PyStr → PyStr → Option (PyStr × PyStr)
  | acc, [] =>
    match closeMatch [] with
    | some rem => some (acc.reverse, rem)
    | none => none
  | acc, c :: cs =>
    match closeMatch (c :: cs) with
    | some rem => some (acc.reverse, rem)
    | none => if c = '\n' then none else capLoop (c :: acc) cs

/-- One candidate capture start: the group needs at least one character
and cannot begin with a newline. -/
def tryCapture : PyStr → Option (PyStr × PyStr)
  | [] => none
  | c :: cs => if c = '\n' then none else capLoop [c] cs

/-- Backtracking of the first `\s*`: try the candidate start `t` (the
text after the whitespace consumed so far), then give back one
whitespace character at a time (`wsRev` is the consumed whitespace run,
reversed). -/
def startLoop : PyStr → PyStr → Option (PyStr × PyStr)
  | [], t =>
    match tryCapture t with
    | some r => some r
    | none => none
  | c :: ws2, t =>
    match tryCapture t with
    | some r => some r
    | none => startLoop ws2 (c :: t)

/-- One match attempt of `SECTION_PATTERN` at a line start: the literal
prefix, then the engine above.  Returns the captured group and the text
after the match end (empty, or beginning with the `\n` before which `$`
matched). -/
def matchAt (t : PyStr) : Option (PyStr × PyStr) :=
  if ("===SECTION:".toList).isPrefixOf t then
    startLoop ((t.drop 11).takeWhile isPySpace).reverse ((t.drop 11).dropWhile isPySpace)
  else none

/-- A match attempt at the start of a line list (lines newline-free, as
produced by `splitNL`): run `matchAt` on the joined text; on success
return the captured group and the lines strictly after the match (the
match always ends at a line end). -/
def matchMarked (lines : List PyStr) : Option (PyStr × List PyStr) :=
  match matchAt (joinNL lines) with
  | none => none
  | some (cap, []) => some (cap, [])
  | some (cap, _ :: rest) => some (cap, splitNL rest)

/-- The `re.split` scan over the line decomposition: at each line start
attempt a match (positions inside a line cannot match `^`); a match
consumes its lines and scanning resumes after them.  Returns the lines
before the first match and, for each match, its capture with the lines
up to the next match.  Every step consumes at least one line, so the
recursion is bounded by the line count; the structural `fuel` makes the
bound explicit and never binds when entered with `fuel = length + 1`. -/
def splitMarkedF : ℕ → List PyStr → List PyStr × List (PyStr × List PyStr)
  | 0, _ => ([], [])
  | _ + 1, [] => ([], [])
  | fuel + 1, l :: ls =>
    match matchMarked (l :: ls) with
    | some (n, rem) =>
      let r := splitMarkedF fuel rem
      ([], (n, r.1) :: r.2)
    | none =>
      let r := splitMarkedF fuel ls
      (l :: r.1, r.2)

/-- The scan, entered with enough fuel for its input. -/
def splitMarkedLines (lines : List PyStr) : List PyStr × List (PyStr × List PyStr) :=
  splitMarkedF (lines.length + 1) lines

/-- The `(name.strip(), content.strip())` pairs of all matched sections,
in document order, before the non-emptiness filter of `_split_sections`.
(The raw between-matches slice differs from the newline-join of the
between-matches lines only by a leading/trailing newline, which
`strip()` removes, so stripping the join gives exactly
`parts[i+1].strip()`.) -/
def sectionPairs (raw : PyStr) : List (PyStr × PyStr) :=
  ((splitMarkedLines (splitNL raw)).2).map fun p => (pyStrip p.1, pyStrip (joinNL p.2))

/-- Whether one single line matches `SECTION_PATTERN` on its own, and
its capture: used to state claims that speak of a "marker line" (for a
newline-free line the multiline subtleties vanish, and the line matches
iff it starts with `===SECTION:` and the remainder `R` has at least four
characters and ends with `===`; the capture then strips to the same as
`R` minus its final `===`). -/
def markerName? (l : PyStr) : Option PyStr :=
  if ("===SECTION:".toList).isPrefixOf l then
    if 4 ≤ (l.drop 11).length then
      if ("===".toList).isSuffixOf (l.drop 11) then
        some ((l.drop 11).take ((l.drop 11).length - 3))
      else none
    else none
  else none

/-- Python `dict` lookup on the association-list model of a dict. -/
def dictGet : List (PyStr × PyStr) → PyStr → Option PyStr
  | [], _ => none
  | p :: d, n => if p.1 = n then some p.2 else dictGet d n

/-- Python `dict` assignment `d[k] = v`: overwrite in place if the key
exists, otherwise append (insertion order preserved). -/
def dictSet (d : List (PyStr × PyStr)) (k v : PyStr) : List (PyStr × PyStr) :=
  if d.any (fun p => p.1 = k) then d.map (fun p => if p.1 = k then (k, v) else p)
  else d ++ [(k, v)]

/-- One step of the `_split_sections` loop body:
`if name and content: sections[name] = content`. -/
def sectionStep (d : List (PyStr × PyStr)) (p : PyStr × PyStr) : List (PyStr × PyStr) :=
  if p.1 ≠ [] ∧ p.2 ≠ [] then dictSet d p.1 p.2 else d

/-- `_split_sections(raw)`: the sections dict built from the matched
marker pairs, keeping only those with non-empty stripped name and
non-empty stripped content. -/
def split_sections (raw : PyStr) : List (PyStr × PyStr) :=
  (sectionPairs raw).foldl sectionStep []

/-- The value the parser gives a name when processed left to right with
overwriting: the stripped content of the last matched section with that
stripped name and non-empty stripped content (claim C10's "last marker in
document order"). -/
def lastContent (n : PyStr) (ps : List (PyStr × PyStr)) : Option PyStr :=
  ps.foldl (fun acc p => if p.1 = n ∧ p.2 ≠ [] then some p.2 else acc) none

/-!  ## Rendering sections back to marker blocks (claim C8) -/

/-- The marker line `===SECTION: name===`. -/
def markerLine (n : PyStr) : PyStr :=
  "===SECTION: ".toList ++ n ++ "===".toList

/-- One `===SECTION: name===\ncontent` block. -/
def renderSection (p : PyStr × PyStr) : PyStr :=
  markerLine p.1 ++ '\n' :: p.2

/-- Consecutive `===SECTION: name===\ncontent` blocks, newline-joined so
that every marker sits on its own line. -/
def renderSections (l : List (PyStr × PyStr)) : PyStr :=
  joinNL (l.map renderSection)

/-- A section name that survives the parse-render round trip: non-empty,
already stripped, and on a single line. -/
def goodName (n : PyStr) : Prop := n ≠ [] ∧ pyStrip n = n ∧ '\n' ∉ n

/-- A section content that survives the parse-render round trip:
non-empty, already stripped, and no line of it even begins with the
literal `===SECTION:` (a line that begins with the literal but does not
match the pattern on its own could still seed a match of
`SECTION_PATTERN` whose `\s*` crosses the following line breaks, so the
weaker "no line matches the pattern" does not suffice). -/
def goodContent (c : PyStr) : Prop :=
  c ≠ [] ∧ pyStrip c = c ∧
    ∀ l ∈ splitNL c, ¬ (("===SECTION:".toList).isPrefixOf l = true)

instance : DecidablePred goodName := fun n => by unfold goodName; infer_instance

instance : DecidablePred goodContent := fun c => by unfold goodContent; infer_instance

/-!  ## Shared State Store (`tools/shared_memory.py`, class `SharedMemory`)

The store is backed by the `docgen` PostgreSQL table, rows keyed by
`task_description` with a nullable JSON text column `metadata_json`.
The model carries the backing state explicitly: `unavailable` is the
no-`DATABASE_URL` case (`self._Session` unset, every method returns its
fallback immediately), `failing` is a backend whose queries raise (every
method catches the exception and returns its fallback), and `table rows`
is a reachable table.  Values are modelled as their JSON text (what
`set` stores via `json.dumps`, never empty). -/

inductive SharedMemory where
  | unavailable : SharedMemory
  | failing : SharedMemory
  | table : List (PyStr × Option PyStr) → SharedMemory
deriving DecidableEq

/-- `session.query(...).filter_by(task_description=key).first()`. -/
def rowLookup : List (PyStr × Option PyStr) → PyStr → Option (Option PyStr)
  | [], _ => none
  | r :: rs, k => if r.1 = k then some r.2 else rowLookup rs k

namespace SharedMemory

/-- `SharedMemory.get(key, default)`: default when the backend is
unavailable or the query raises; the stored JSON text when the row
exists with a truthy `metadata_json`; the default otherwise. -/
def get : SharedMemory → PyStr → PyStr → PyStr
  | .unavailable, _, d => d
  | .failing, _, d => d
  | .table rows, k, d =>
    match rowLookup rows k with
    | some (some v) => if v ≠ [] then v else d
    | _ => d

/-- `SharedMemory.set(key, value)`: update the row if present, else
insert; no-op when the backend is unavailable or raises (rollback). -/
def set : SharedMemory → PyStr → PyStr → SharedMemory
  | .unavailable, _, _ => .unavailable
  | .failing, _, _ => .failing
  | .table rows, k, v =>
    .table (if (rowLookup rows k).isSome then
        rows.map (fun r => if r.1 = k then (k, some v) else r)
      else rows ++ [(k, some v)])

/-- `SharedMemory.keys()`: all truthy `task_description` values. -/
def keys : SharedMemory → List PyStr
  | .table rows => (rows.map Prod.fst).filter (fun k => k ≠ [])
  | _ => []

/-- The SQL pattern `agent_traces%` of the `keep_traces` filter: in SQL
`LIKE`, `_` is a single-character wildcard and `%` matches any suffix,
so a key matches iff it is `agent`, then any one character, then
`traces`, then anything. -/
def likeAgentTraces (k : PyStr) : Bool :=
  decide (k.take 5 = "agent".toList) && decide ((k.drop 6).take 6 = "traces".toList)
    && decide (12 ≤ k.length)

/-- `SharedMemory.clear(keep_traces=True)`: with `keep_traces` the
deletion is filtered by `~task_description.like('agent_traces%')`, so
rows whose key matches that LIKE pattern survive; without it every row
is deleted.  `main.run` calls `clear()` with the default, i.e.
`keepTraces = true`. -/
def clear : SharedMemory → Bool → SharedMemory
  | .unavailable, _ => .unavailable
  | .failing, _ => .failing
  | .table rows, keepTraces =>
    .table (if keepTraces then rows.filter (fun r => likeAgentTraces r.1) else [])

end SharedMemory

/-!  ## Evaluation Gate (`crew.py`, `_evaluate_output` and
`_store_results_locally` / `run_with_evaluation`)

`_evaluate_output` measures each named metric in a `try`: on success it
records `{"score": metric.score, "success": True}`, on failure
`{"score": 0.0, "success": False}` — a per-criterion failure never
propagates.  The scorer is an external collaborator, modelled as an
oracle from criterion name to `Option` score.  The derived average is
`sum(r["score"] for r in results.values() if r["success"]) /
len(results) if results else 0`: the numerator sums the successful
criteria, the denominator counts all of them. -/

structure CriterionOutcome where
  name : String
  score : ℚ
  success : Bool
deriving DecidableEq

/-- The six metric names of `_get_evaluation_metrics`. -/
def metricNames : List String :=
  ["faithfulness", "toxicity", "hallucination", "answer_relevancy",
   "task_completion", "execution_efficiency"]

/-- `_evaluate_output`: one record per criterion, failures recorded with
score 0.0 and `success = False`. -/
def evaluate_output (scorer : String → Option ℚ) (names : List String) :
    List CriterionOutcome :=
  names.map fun n =>
    match scorer n with
    | some s => ⟨n, s, true⟩
    | none => ⟨n, 0, false⟩

/-- The `average_score` of `_store_results_locally` and
`run_with_evaluation`: successful scores summed, divided by the total
number of criteria (0 when there are none). -/
def average_score (rs : List CriterionOutcome) : ℚ :=
  if rs.isEmpty then 0
  else ((rs.filter (·.success)).map (·.score)).sum / (rs.length : ℚ)

/-- The mean as the spec words it (for the claim C3 comparison): taken
over the successfully scored criteria only. -/
def specMeanSuccessOnly (rs : List CriterionOutcome) : ℚ :=
  let ok := rs.filter (·.success)
  if ok.isEmpty then 0
  else (ok.map (·.score)).sum / (ok.length : ℚ)

/-!  ## Retry Controller (`main.py`, `run`, the attempt/retry loop)

One attempt of the Task Graph Executor plus its evaluation is an
external collaborator, modelled as an oracle from the (1-based) attempt
index to either `ok text score` or `crash` (the `_run_crew_traced` call
of a retry raising, which `run` catches and answers with `break`).

The loop state mirrors the Python locals `attempt`, `raw_output`,
`avg_score`, `best_output`, `best_score`; `hist` is a ghost field
recording every evaluated attempt `(text, score)` in order, used only to
state the claims — the executable fields never read it.  The loop runs
`while avg_score < MIN_EVAL_SCORE and attempt < MAX_RETRY_ATTEMPTS`;
since `attempt` starts at 1 and grows by 1 per iteration, at most
`maxA - 1` iterations occur, so fuel `maxA` never binds. -/

inductive AttemptResult where
  | ok : String → ℚ → AttemptResult
  | crash : AttemptResult

structure RetryState where
  attempt : ℕ
  raw : String
  avg : ℚ
  bestOut : String
  bestScore : ℚ
  hist : List (String × ℚ)
deriving DecidableEq

/-- State after the first attempt: `best_output, best_score = raw_output,
avg_score` with `attempt = 1`. -/
def initState (t : String) (sc : ℚ) : RetryState := ⟨1, t, sc, t, sc, [(t, sc)]⟩

/-- One successful retry iteration: re-evaluate, and
`if avg_score > best_score: best_score, best_output = avg_score, raw_output`. -/
def retryStep (s : RetryState) (t : String) (sc : ℚ) : RetryState :=
  { attempt := s.attempt + 1
    raw := t
    avg := sc
    bestOut := if sc > s.bestScore then t else s.bestOut
    bestScore := if sc > s.bestScore then sc else s.bestScore
    hist := s.hist ++ [(t, sc)] }

/-- The retry `while` loop.  `attempt += 1` happens before the crew
re-run, so a crashing retry leaves everything but `attempt` unchanged
and stops the loop. -/
def retryLoop (thr : ℚ) (maxA : ℕ) (next : ℕ → AttemptResult) :
    ℕ → RetryState → RetryState
  | 0, s => s
  | fuel + 1, s =>
    if s.avg < thr ∧ s.attempt < maxA then
      match next (s.attempt + 1) with
      | .crash => { s with attempt := s.attempt + 1 }
      | .ok t sc => retryLoop thr maxA next fuel (retryStep s t sc)
    else s

/-- The whole retry phase, from the already-evaluated first attempt. -/
def retryRun (thr : ℚ) (maxA : ℕ) (first : String × ℚ) (next : ℕ → AttemptResult) :
    RetryState :=
  retryLoop thr maxA next maxA (initState first.1 first.2)

/-- The post-loop selection
`if best_score > avg_score: raw_output, avg_score = best_output, best_score`. -/
def finalizeBest (s : RetryState) : String × ℚ :=
  if s.bestScore > s.avg then (s.bestOut, s.bestScore) else (s.raw, s.avg)

/-!  ## Human Approval State Machine (`human_in_the_loop.py`,
`HumanInTheLoop.request_approval` and `_handle_edit_request`)

Operator interaction is a list of `input()` answers, consumed left to
right; an exhausted list is `EOFError` at the prompt, modelled as
`none`.  `_prompt_choice` strips the answer and substitutes the default
`"A"` on an empty one; the choice is then uppercased and compared.  The
edit handler collects feedback lines until a double empty line (or end
of input), joins them with newlines and strips; empty feedback re-enters
`request_approval` (the `AwaitingDecision` prompt), non-empty feedback
becomes the `EDIT_REQUESTED` result. -/

inductive ApprovalStatus where
  | approved : ApprovalStatus
  | editRequested : ApprovalStatus
deriving DecidableEq

structure HumanApprovalResult where
  status : ApprovalStatus
  feedback : Option PyStr
deriving DecidableEq

/-- Python `str.upper()` (ASCII suffices for the compared choices). -/
def pyUpper (s : PyStr) : PyStr := s.map Char.toUpper

/-- The feedback-collection loop: append lines until a stripped-empty
line follows a stripped-empty last collected line, or input ends.
Returns the collected lines and the remaining input. -/
def collectFeedback : List PyStr → List PyStr → List PyStr × List PyStr
  | [], acc => (acc, [])
  | l :: rest, acc =>
    if pyStrip l = [] ∧ acc.getLast?.map pyStrip = some [] then (acc, rest)
    else collectFeedback rest (acc ++ [l])

/-- The `while True` menu of `request_approval` (interactive case),
together with `_handle_edit_request`: approve returns `APPROVED`, edit
collects feedback and either returns `EDIT_REQUESTED` with the stripped
feedback or, on empty feedback, re-enters the menu; an unrecognized
choice re-prompts.  Every pass consumes at least one input, so the
recursion is bounded by the input length; the structural `fuel`
parameter makes that bound explicit and never binds when the loop is
entered with `fuel = inputs.length + 1`. -/
def approvalLoopFuel : ℕ → List PyStr → Option (HumanApprovalResult × List PyStr)
  | 0, _ => none
  | _ + 1, [] => none
  | fuel + 1, x :: rest =>
    let raw := pyStrip x
    let choice := pyUpper (if raw = [] then "A".toList else raw)
    if choice = "A".toList ∨ choice = "APPROVE".toList then
      some (⟨.approved, none⟩, rest)
    else if choice = "E".toList ∨ choice = "EDIT".toList then
      let p := collectFeedback rest []
      let fb := pyStrip (joinNL p.1)
      if fb = [] then approvalLoopFuel fuel p.2
      else some (⟨.editRequested, some fb⟩, p.2)
    else approvalLoopFuel fuel rest

/-- The interactive menu, entered with enough fuel for its input. -/
def request_approval_loop (inputs : List PyStr) :
    Option (HumanApprovalResult × List PyStr) :=
  approvalLoopFuel (inputs.length + 1) inputs

/-- `HumanInTheLoop.request_approval`: auto-approve short-circuits to
`APPROVED` without consuming input; otherwise the interactive menu. -/
def request_approval (autoApprove : Bool) (inputs : List PyStr) :
    Option (HumanApprovalResult × List PyStr) :=
  if autoApprove then some (⟨.approved, none⟩, inputs) else request_approval_loop inputs

/-!  ## Approval / edit phase of `main.run` (steps 5–6)

After the retry loop, `run` extracts sections, calls
`hitl.request_approval(sections, raw_output)` once, and on
`EDIT_REQUESTED` runs the edit-iteration crew exactly once with the
feedback injected into its inputs, re-extracts sections from its output
and falls through to `_write_final_docs` — with no second
`request_approval` call.  The edit crew run is an external collaborator,
modelled as an oracle from the injected feedback to the raw output of
the re-run; `editRuns` and `approvalCalls` record how many times `run`
invoked each collaborator on the path taken. -/

/-- The task list of the full crew (`crew.py`, declaration order). -/
def fullCrewTasks : List String :=
  ["code_analysis_task", "api_semantics_task", "architecture_reasoning_task",
   "examples_generation_task", "getting_started_task", "document_assembly_task"]

/-- Modelled from the spec: `crew_for_edit_iteration` is called by
`main.run` and `api_server.py` but is not defined in the sources; per
the spec the edit variant "skips indexing and injects a `human_feedback`
value into every downstream task's input, reusing the Shared State Store
populated by a prior full run".  The indexing task is
`code_analysis_task` ("all except code_analyzer" in the source
comments). -/
def editCrewTasks : List String :=
  fullCrewTasks.filter (fun t => t ≠ "code_analysis_task")

/-- `_extract_sections_from_crew`: marker split of the raw output; when
no markers were found, the keyword-heuristic fallback built from the
individual task outputs (an external collaborator, passed as a value). -/
def extract_sections (fallback : List (PyStr × PyStr)) (raw : PyStr) :
    List (PyStr × PyStr) :=
  let s := split_sections raw
  if s = [] then fallback else s

structure EditPhaseResult where
  sections : List (PyStr × PyStr)
  raw : PyStr
  editRuns : ℕ
  approvalCalls : ℕ
deriving DecidableEq

/-- Steps 5–6 of `main.run`: one approval request
(`HumanInTheLoop(auto_approve=False)`), then either finalize the current
sections unchanged, or run the edit crew once on the feedback and
finalize its output unconditionally. -/
def hitlPhase (opInputs : List PyStr) (sections0 : List (PyStr × PyStr)) (raw0 : PyStr)
    (editRun : PyStr → PyStr) (fallback : List (PyStr × PyStr)) :
    Option EditPhaseResult :=
  match request_approval false opInputs with
  | none => none
  | some (r, _) =>
    match r.status with
    | .approved => some ⟨sections0, raw0, 0, 1⟩
    | .editRequested =>
      let out := editRun (r.feedback.getD [])
      some ⟨extract_sections fallback out, out, 1, 1⟩

/-!  # Lemmas -/

theorem dropWhile_head_false {p : Char → Bool} :
    ∀ (l : PyStr) (c : Char) (cs : PyStr), l.dropWhile p = c :: cs → p c = false := by
  intro l
  induction l with
  | nil => intro c cs h; simp at h
  | cons a as ih =>
    intro c cs h
    rw [List.dropWhile_cons] at h
    by_cases hp : p a = true
    · rw [if_pos hp] at h
      exact ih c cs h
    · rw [if_neg hp] at h
      injection h with h1 h2
      subst h1
      simpa using hp

theorem pyStrip_eq_nil_all_space {l : PyStr} (h : pyStrip l = []) :
    ∀ c ∈ l, isPySpace c = true := by
  unfold pyStrip at h
  rw [List.reverse_eq_nil_iff, List.dropWhile_eq_nil_iff] at h
  intro c hc
  rw [← List.takeWhile_append_dropWhile (p := isPySpace) (l := l)] at hc
  rcases List.mem_append.mp hc with hm | hm
  · exact List.mem_takeWhile_imp hm
  · exact h c (List.mem_reverse.mpr hm)

theorem pyStrip_pyStrip_ne_nil {s : PyStr} (h : pyStrip s ≠ []) :
    pyStrip (pyStrip s) ≠ [] := by
  intro hcontra
  have hall := pyStrip_eq_nil_all_space hcontra
  have hinner : (s.dropWhile isPySpace).reverse.dropWhile isPySpace ≠ [] := by
    intro hz
    exact h (by unfold pyStrip; rw [hz]; rfl)
  cases htc : (s.dropWhile isPySpace).reverse.dropWhile isPySpace with
  | nil => exact hinner htc
  | cons c cs =>
    have hc : isPySpace c = false := dropWhile_head_false _ c cs htc
    have hmem : c ∈ pyStrip s := by
      unfold pyStrip
      rw [htc]
      exact List.mem_reverse.mpr (List.mem_cons_self c cs)
    rw [hall c hmem] at hc
    cases hc

theorem dropWhile_cons_head_false {c : Char} {m : PyStr}
    (h : (c :: m).dropWhile isPySpace = c :: m) : isPySpace c = false := by
  by_cases hc : isPySpace c = true
  · rw [List.dropWhile_cons, if_pos hc] at h
    have hle : (m.dropWhile isPySpace).length ≤ m.length :=
      (List.dropWhile_sublist isPySpace).length_le
    have hlen := congrArg List.length h
    rw [List.length_cons] at hlen
    omega
  · simpa using hc

theorem pyStrip_fixed_dropWhile {n : PyStr} (h : pyStrip n = n) :
    n.dropWhile isPySpace = n := by
  have h1 : (n.dropWhile isPySpace).length ≤ n.length :=
    (List.dropWhile_sublist isPySpace).length_le
  have h2 : ((n.dropWhile isPySpace).reverse.dropWhile isPySpace).length
      ≤ (n.dropWhile isPySpace).reverse.length :=
    (List.dropWhile_sublist isPySpace).length_le
  have h3 := congrArg List.length h
  unfold pyStrip at h3
  rw [List.length_reverse] at h3
  rw [List.length_reverse] at h2
  exact (List.dropWhile_sublist isPySpace).eq_of_length (by omega)

theorem pyStrip_fixed_rev_dropWhile {n : PyStr} (h : pyStrip n = n) :
    n.reverse.dropWhile isPySpace = n.reverse := by
  have hfix := pyStrip_fixed_dropWhile h
  unfold pyStrip at h
  rw [hfix] at h
  have h2 := congrArg List.reverse h
  rw [List.reverse_reverse] at h2
  exact h2

theorem head_not_space_of_strip_fixed {c : Char} {m : PyStr}
    (h : pyStrip (c :: m) = c :: m) : isPySpace c = false :=
  dropWhile_cons_head_false (pyStrip_fixed_dropWhile h)

theorem rev_head_not_space_of_strip_fixed {n : PyStr} (h : pyStrip n = n)
    {c : Char} {rs : PyStr} (hrev : n.reverse = c :: rs) : isPySpace c = false := by
  have h2 := pyStrip_fixed_rev_dropWhile h
  rw [hrev] at h2
  exact dropWhile_cons_head_false h2

theorem splitNL_ne_nil (s : PyStr) : splitNL s ≠ [] := by
  cases s with
  | nil => simp [splitNL]
  | cons c cs =>
    rw [splitNL]
    by_cases hc : c = '\n'
    · simp [hc]
    · rw [if_neg hc]
      cases splitNL cs <;> simp

theorem splitNL_cons_newline (x : PyStr) : splitNL ('\n' :: x) = [] :: splitNL x := by
  rw [splitNL, if_pos rfl]

theorem splitNL_cons_other {c : Char} (hc : c ≠ '\n') {x h : PyStr} {t : List PyStr}
    (hx : splitNL x = h :: t) : splitNL (c :: x) = (c :: h) :: t := by
  rw [splitNL, if_neg hc, hx]

theorem splitNL_append_newline (a b : PyStr) :
    splitNL (a ++ '\n' :: b) = splitNL a ++ splitNL b := by
  induction a with
  | nil => simp [splitNL]
  | cons c cs ih =>
    by_cases hc : c = '\n'
    · subst hc
      rw [List.cons_append, splitNL_cons_newline, splitNL_cons_newline, ih, List.cons_append]
    · cases hcs : splitNL cs with
      | nil => exact absurd hcs (splitNL_ne_nil cs)
      | cons h t =>
        rw [List.cons_append,
          splitNL_cons_other hc (x := cs ++ '\n' :: b) (h := h) (t := t ++ splitNL b)
            (by rw [ih, hcs]; rfl),
          splitNL_cons_other hc hcs, List.cons_append]

theorem splitNL_no_newline {a : PyStr} (h : '\n' ∉ a) : splitNL a = [a] := by
  induction a with
  | nil => simp [splitNL]
  | cons c cs ih =>
    have hc : c ≠ '\n' := fun e => h (e ▸ List.mem_cons_self c cs)
    have hcs : '\n' ∉ cs := fun m => h (List.mem_cons_of_mem _ m)
    rw [splitNL, if_neg hc, ih hcs]

theorem joinNL_single (l : PyStr) : joinNL [l] = l := rfl

theorem joinNL_cons_cons (l h : PyStr) (t : List PyStr) :
    joinNL (l :: h :: t) = l ++ '\n' :: joinNL (h :: t) := rfl

theorem joinNL_splitNL (s : PyStr) : joinNL (splitNL s) = s := by
  induction s with
  | nil => simp [splitNL, joinNL]
  | cons c cs ih =>
    by_cases hc : c = '\n'
    · subst hc
      rw [splitNL_cons_newline]
      cases hcs : splitNL cs with
      | nil => exact absurd hcs (splitNL_ne_nil cs)
      | cons h t =>
        rw [hcs] at ih
        rw [joinNL_cons_cons, ih, List.nil_append]
    · cases hcs : splitNL cs with
      | nil => exact absurd hcs (splitNL_ne_nil cs)
      | cons h t =>
        rw [splitNL_cons_other hc hcs]
        rw [hcs] at ih
        cases t with
        | nil =>
          rw [joinNL_single] at ih ⊢
          rw [ih]
        | cons h2 t2 =>
          rw [joinNL_cons_cons] at ih ⊢
          rw [List.cons_append, ih]

/-!  ## Dict lemmas -/

theorem dictGet_map_ne {d : List (PyStr × PyStr)} {k v n : PyStr} (hn : n ≠ k) :
    dictGet (d.map (fun p => if p.1 = k then (k, v) else p)) n = dictGet d n := by
  induction d with
  | nil => simp [dictGet]
  | cons p rest ih =>
    by_cases hp : p.1 = k
    · rw [List.map_cons, if_pos hp, dictGet, dictGet, if_neg (fun e => hn e.symm),
        if_neg (fun e => hn (hp ▸ e).symm), ih]
    · rw [List.map_cons, if_neg hp, dictGet, dictGet]
      by_cases hpn : p.1 = n
      · rw [if_pos hpn, if_pos hpn]
      · rw [if_neg hpn, if_neg hpn, ih]

theorem dictGet_map_eq {d : List (PyStr × PyStr)} {k v : PyStr}
    (h : d.any (fun p => p.1 = k) = true) :
    dictGet (d.map (fun p => if p.1 = k then (k, v) else p)) k = some v := by
  induction d with
  | nil => simp at h
  | cons p rest ih =>
    by_cases hp : p.1 = k
    · rw [List.map_cons, if_pos hp, dictGet, if_pos rfl]
    · rw [List.map_cons, if_neg hp, dictGet, if_neg hp]
      rw [List.any_cons] at h
      rcases Bool.or_eq_true_iff.mp h with h1 | h1
      · exact absurd (of_decide_eq_true h1) hp
      · exact ih h1

theorem dictGet_none_of_any_false {d : List (PyStr × PyStr)} {k : PyStr}
    (h : d.any (fun p => p.1 = k) = false) : dictGet d k = none := by
  induction d with
  | nil => rfl
  | cons p rest ih =>
    rw [List.any_cons, Bool.or_eq_false_iff] at h
    rw [dictGet, if_neg (fun e => by simp [e] at h), ih h.2]

theorem dictGet_append (d e : List (PyStr × PyStr)) (n : PyStr) :
    dictGet (d ++ e) n = Option.or (dictGet d n) (dictGet e n) := by
  induction d with
  | nil => simp [dictGet, Option.or]
  | cons p rest ih =>
    by_cases hp : p.1 = n
    · rw [List.cons_append, dictGet, if_pos hp, dictGet, if_pos hp, Option.or]
    · rw [List.cons_append, dictGet, if_neg hp, dictGet, if_neg hp, ih]

theorem dictGet_dictSet (d : List (PyStr × PyStr)) (k v n : PyStr) :
    dictGet (dictSet d k v) n = if n = k then some v else dictGet d n := by
  unfold dictSet
  by_cases hany : d.any (fun p => p.1 = k) = true
  · rw [if_pos hany]
    by_cases hn : n = k
    · subst hn
      rw [if_pos rfl, dictGet_map_eq hany]
    · rw [if_neg hn, dictGet_map_ne hn]
  · rw [if_neg hany, dictGet_append]
    have h0 : dictGet d k = none :=
      dictGet_none_of_any_false (Bool.eq_false_iff.mpr hany)
    by_cases hn : n = k
    · subst hn
      rw [h0, if_pos rfl, dictGet, if_pos rfl]
      rfl
    · rw [if_neg hn]
      have hnone : dictGet [(k, v)] n = none := by
        rw [dictGet, if_neg (fun e => hn e.symm)]
        rfl
      rw [hnone]
      cases dictGet d n <;> rfl

/-!  ## `_split_sections` fold lemmas -/

theorem foldl_sectionStep_sound :
    ∀ (ps : List (PyStr × PyStr)) (d : List (PyStr × PyStr)) (n c : PyStr),
      dictGet (ps.foldl sectionStep d) n = some c →
      dictGet d n = some c ∨ ((n, c) ∈ ps ∧ n ≠ [] ∧ c ≠ []) := by
  intro ps
  induction ps with
  | nil => intro d n c h; exact Or.inl h
  | cons p ps' ih =>
    intro d n c h
    rw [List.foldl_cons] at h
    rcases ih (sectionStep d p) n c h with h1 | h1
    · unfold sectionStep at h1
      by_cases hfil : p.1 ≠ [] ∧ p.2 ≠ []
      · rw [if_pos hfil, dictGet_dictSet] at h1
        by_cases hn : n = p.1
        · rw [if_pos hn] at h1
          injection h1 with h2
          right
          refine ⟨?_, hn ▸ hfil.1, h2 ▸ hfil.2⟩
          rw [hn, ← h2]
          exact List.mem_cons_self _ _
        · rw [if_neg hn] at h1
          exact Or.inl h1
      · rw [if_neg hfil] at h1
        exact Or.inl h1
    · exact Or.inr ⟨List.mem_cons_of_mem _ h1.1, h1.2⟩

theorem foldl_sectionStep_complete :
    ∀ (ps : List (PyStr × PyStr)) (d : List (PyStr × PyStr)) (n : PyStr),
      ((∃ c, dictGet d n = some c) ∨ ∃ c, (n, c) ∈ ps ∧ n ≠ [] ∧ c ≠ []) →
      ∃ c, dictGet (ps.foldl sectionStep d) n = some c := by
  intro ps
  induction ps with
  | nil =>
    intro d n h
    rcases h with h | ⟨c, hc, _⟩
    · exact h
    · simp at hc
  | cons p ps' ih =>
    intro d n h
    rw [List.foldl_cons]
    have hkeep : ∀ c, dictGet d n = some c → ∃ c2, dictGet (sectionStep d p) n = some c2 := by
      intro c hc
      unfold sectionStep
      by_cases hfil : p.1 ≠ [] ∧ p.2 ≠ []
      · rw [if_pos hfil, dictGet_dictSet]
        by_cases hn : n = p.1
        · exact ⟨p.2, by rw [if_pos hn]⟩
        · exact ⟨c, by rw [if_neg hn]; exact hc⟩
      · exact ⟨c, by rw [if_neg hfil]; exact hc⟩
    rcases h with ⟨c, hc⟩ | ⟨c, hmem, hn, hc⟩
    · exact ih _ _ (Or.inl (hkeep c hc))
    · rcases List.mem_cons.mp hmem with he | hm
      · have hp1 : p.1 = n := by rw [← he]
        have hp2 : p.2 = c := by rw [← he]
        refine ih _ _ (Or.inl ?_)
        unfold sectionStep
        rw [if_pos ⟨hp1 ▸ hn, hp2 ▸ hc⟩, dictGet_dictSet, if_pos hp1.symm]
        exact ⟨p.2, rfl⟩
      · exact ih _ _ (Or.inr ⟨c, hm, hn, hc⟩)

theorem foldl_sectionStep_last :
    ∀ (ps : List (PyStr × PyStr)) (d : List (PyStr × PyStr)) (n : PyStr), n ≠ [] →
      dictGet (ps.foldl sectionStep d) n =
        ps.foldl (fun acc p => if p.1 = n ∧ p.2 ≠ [] then some p.2 else acc) (dictGet d n) := by
  intro ps
  induction ps with
  | nil => intro d n _; rfl
  | cons p ps' ih =>
    intro d n hn
    rw [List.foldl_cons, List.foldl_cons, ih _ _ hn]
    congr 1
    unfold sectionStep
    by_cases hcase : p.1 = n ∧ p.2 ≠ []
    · rw [if_pos hcase, if_pos ⟨hcase.1 ▸ hn, hcase.2⟩, dictGet_dictSet,
        if_pos hcase.1.symm]
    · rw [if_neg hcase]
      by_cases hfil : p.1 ≠ [] ∧ p.2 ≠ []
      · rw [if_pos hfil, dictGet_dictSet]
        have hne : n ≠ p.1 := by
          intro e
          exact hcase ⟨e.symm, hfil.2⟩
        rw [if_neg hne]
      · rw [if_neg hfil]

/-!  ## Marker and rendering lemmas -/

theorem markerLine_decomp (n : PyStr) :
    markerLine n = "===SECTION:".toList ++ (' ' :: (n ++ "===".toList)) := by
  unfold markerLine
  have h : "===SECTION: ".toList = "===SECTION:".toList ++ [' '] := by decide
  rw [h, List.append_assoc, List.append_assoc]
  rfl

theorem markerLine_no_newline {n : PyStr} (h : '\n' ∉ n) : '\n' ∉ markerLine n := by
  rw [markerLine_decomp]
  intro hmem
  rcases List.mem_append.mp hmem with h1 | h1
  · revert h1; decide
  · rcases List.mem_cons.mp h1 with h2 | h2
    · exact absurd h2 (by decide)
    · rcases List.mem_append.mp h2 with h3 | h3
      · exact h h3
      · revert h3; decide

/-!  ## The backtracking engine at a marker line -/

theorem closeMatch_end {rest : PyStr} (hrest : rest = [] ∨ ∃ r2, rest = '\n' :: r2) :
    closeMatch ("===".toList ++ rest) = some rest := by
  have hdrop3 : (("===".toList : PyStr)).dropWhile isPySpace = "===".toList := by decide
  have hdw : (("===".toList ++ rest : PyStr)).dropWhile isPySpace = "===".toList ++ rest := by
    rw [List.dropWhile_append, if_neg (by rw [hdrop3]; decide), hdrop3]
  have hlen3 : ("===".toList : PyStr).length = 3 := by decide
  unfold closeMatch
  rw [hdw, if_pos (by rw [List.isPrefixOf_iff_prefix]; exact List.prefix_append _ _)]
  rw [show (3 : ℕ) = ("===".toList : PyStr).length from hlen3.symm, List.drop_left]
  rcases hrest with rfl | ⟨r2, rfl⟩
  · rfl
  · simp

theorem closeMatch_mid (m rest : PyStr) (hnl : '\n' ∉ m)
    (hne : m.dropWhile isPySpace ≠ []) :
    closeMatch (m ++ ("===".toList ++ rest)) = none := by
  have hlen3 : ("===".toList : PyStr).length = 3 := by decide
  have hdw : (m ++ ("===".toList ++ rest)).dropWhile isPySpace
      = m.dropWhile isPySpace ++ ("===".toList ++ rest) := by
    rw [List.dropWhile_append, if_neg (by simpa [List.isEmpty_iff] using hne)]
  have hdlen : 1 ≤ (m.dropWhile isPySpace).length := by
    cases hcase : m.dropWhile isPySpace with
    | nil => exact absurd hcase hne
    | cons a b => simp
  unfold closeMatch
  rw [hdw]
  by_cases hp : ("===".toList : PyStr).isPrefixOf
      (m.dropWhile isPySpace ++ ("===".toList ++ rest)) = true
  · rw [if_pos hp]
    cases hd3 : (m.dropWhile isPySpace ++ ("===".toList ++ rest)).drop 3 with
    | nil =>
      exfalso
      have hlen := congrArg List.length hd3
      rw [List.length_drop, List.length_append, List.length_append, hlen3] at hlen
      simp at hlen
      omega
    | cons c r2 =>
      have hget : (m.dropWhile isPySpace ++ ("===".toList ++ rest))[3]? = some c := by
        have hg := congrArg (fun l : PyStr => l[0]?) hd3
        simpa [List.getElem?_drop] using hg
      have hc : c ≠ '\n' := by
        by_cases hl3 : 3 < (m.dropWhile isPySpace).length
        · rw [List.getElem?_append_left hl3] at hget
          have hmem : c ∈ m.dropWhile isPySpace := List.getElem?_mem hget
          have hcm : c ∈ m := (List.dropWhile_sublist isPySpace).subset hmem
          exact fun e => hnl (e ▸ hcm)
        · push_neg at hl3
          rw [List.getElem?_append_right hl3] at hget
          rw [List.getElem?_append_left (by rw [hlen3]; omega)] at hget
          have hmem : c ∈ ("===".toList : PyStr) := List.getElem?_mem hget
          have heq : c = '=' := by
            have h3 : ("===".toList : PyStr) = ['=', '=', '='] := by decide
            rw [h3] at hmem
            rcases List.mem_cons.mp hmem with rfl | hmem2
            · rfl
            · rcases List.mem_cons.mp hmem2 with rfl | hmem3
              · rfl
              · rcases List.mem_cons.mp hmem3 with rfl | hmem4
                · rfl
                · cases hmem4
          rw [heq]
          decide
      dsimp only
      rw [if_neg hc]
  · rw [if_neg hp]

theorem capLoop_run {rest : PyStr} (hrest : rest = [] ∨ ∃ r2, rest = '\n' :: r2) :
    ∀ (m acc : PyStr), '\n' ∉ m →
      (∀ c, m.getLast? = some c → isPySpace c = false) →
      capLoop acc (m ++ ("===".toList ++ rest)) = some (acc.reverse ++ m, rest) := by
  intro m
  induction m with
  | nil =>
    intro acc _ _
    have hE : ("===".toList : PyStr) ++ rest = '=' :: ('=' :: ('=' :: rest)) := rfl
    have hcm := closeMatch_end hrest
    rw [hE] at hcm
    rw [List.nil_append, hE, capLoop, hcm]
    simp
  | cons c m2 ih =>
    intro acc hnl hlast
    have hcne : c ≠ '\n' := fun e => hnl (e ▸ List.mem_cons_self c m2)
    have hne : (c :: m2).dropWhile isPySpace ≠ [] := by
      intro h0
      rw [List.dropWhile_eq_nil_iff] at h0
      cases hgl : (c :: m2).getLast? with
      | none => rw [List.getLast?_eq_none_iff] at hgl; cases hgl
      | some x =>
        have hxm : x ∈ c :: m2 := List.mem_of_getLast?_eq_some hgl
        have h1 := hlast x hgl
        have h2 := h0 x hxm
        rw [h1] at h2
        cases h2
    have hcm := closeMatch_mid (c :: m2) rest hnl hne
    rw [List.cons_append] at hcm
    have hl2 : ∀ c2, m2.getLast? = some c2 → isPySpace c2 = false := by
      intro c2 hgl2
      apply hlast
      cases m2 with
      | nil => simp at hgl2
      | cons b l => rw [List.getLast?_cons_cons]; exact hgl2
    have ihres := ih (c :: acc) (fun hx => hnl (List.mem_cons_of_mem _ hx)) hl2
    rw [List.cons_append, capLoop, hcm]
    dsimp only
    rw [if_neg hcne, ihres]
    simp

theorem splitNL_mem_no_newline : ∀ (s : PyStr), ∀ a ∈ splitNL s, '\n' ∉ a := by
  intro s
  induction s with
  | nil =>
    intro a ha
    simp [splitNL] at ha
    subst ha
    simp
  | cons c cs ih =>
    intro a ha
    by_cases hc : c = '\n'
    · subst hc
      rw [splitNL_cons_newline] at ha
      rcases List.mem_cons.mp ha with rfl | ha2
      · simp
      · exact ih a ha2
    · cases hcs : splitNL cs with
      | nil => exact absurd hcs (splitNL_ne_nil cs)
      | cons h t =>
        rw [splitNL_cons_other hc hcs] at ha
        rcases List.mem_cons.mp ha with rfl | ha2
        · intro hmem
          rcases List.mem_cons.mp hmem with h1 | h1
          · exact hc h1.symm
          · exact ih h (by rw [hcs]; exact List.mem_cons_self _ _) h1
        · exact ih a (by rw [hcs]; exact List.mem_cons_of_mem _ ha2)

theorem splitNL_joinNL_of : ∀ (L : List PyStr), L ≠ [] → (∀ a ∈ L, '\n' ∉ a) →
    splitNL (joinNL L) = L := by
  intro L
  induction L with
  | nil => intro h; cases h rfl
  | cons a t ih =>
    intro _ hnl
    cases t with
    | nil =>
      rw [joinNL_single, splitNL_no_newline (hnl a (List.mem_cons_self _ _))]
    | cons b t2 =>
      rw [joinNL_cons_cons, splitNL_append_newline,
        splitNL_no_newline (hnl a (List.mem_cons_self _ _)),
        ih (by simp) (fun x hx => hnl x (List.mem_cons_of_mem _ hx))]
      rfl

theorem isPrefixOf_append_line {p a rest : PyStr} (hp : '\n' ∉ p)
    (hrest : rest = [] ∨ ∃ r, rest = '\n' :: r)
    (h : p.isPrefixOf (a ++ rest) = true) : p.isPrefixOf a = true := by
  rcases hrest with rfl | ⟨r, rfl⟩
  · rwa [List.append_nil] at h
  · rw [List.isPrefixOf_iff_prefix] at h ⊢
    by_cases hlen : p.length ≤ a.length
    · have hpt := List.prefix_iff_eq_take.mp h
      rw [List.take_append_of_le_length hlen] at hpt
      rw [hpt]
      exact List.take_prefix _ _
    · exfalso
      push_neg at hlen
      rcases h with ⟨s, hs⟩
      have hget : p[a.length]? = some '\n' := by
        have h1 : (a ++ '\n' :: r)[a.length]? = some '\n' := by
          rw [List.getElem?_append_right (le_refl _)]
          simp
        rw [← hs] at h1
        rwa [List.getElem?_append_left hlen] at h1
      exact hp (List.getElem?_mem hget)

theorem matchAt_markerLine {n : PyStr} (h1 : n ≠ []) (h2 : pyStrip n = n)
    (h3 : '\n' ∉ n) {rest : PyStr} (hrest : rest = [] ∨ ∃ r2, rest = '\n' :: r2) :
    matchAt (markerLine n ++ rest) = some (n, rest) := by
  cases n with
  | nil => cases h1 rfl
  | cons c0 n' =>
  have hc0s : isPySpace c0 = false := head_not_space_of_strip_fixed h2
  have hc0n : c0 ≠ '\n' := fun e => h3 (e ▸ List.mem_cons_self c0 n')
  have hnl' : '\n' ∉ n' := fun m => h3 (List.mem_cons_of_mem _ m)
  have hlast' : ∀ c, n'.getLast? = some c → isPySpace c = false := by
    intro c hgl
    have hgn : (c0 :: n').getLast? = some c := by
      cases n' with
      | nil => simp at hgl
      | cons b l => rw [List.getLast?_cons_cons]; exact hgl
    cases hrev : (c0 :: n').reverse with
    | nil => simp at hrev
    | cons d rs =>
      have hd : d = c := by
        have hh : (c0 :: n').getLast? = (c0 :: n').reverse.head? :=
          List.getLast?_eq_head?_reverse
        rw [hgn, hrev] at hh
        injection hh with hh2
        exact hh2.symm
      exact hd ▸ rev_head_not_space_of_strip_fixed h2 hrev
  have h11 : ("===SECTION:".toList : PyStr).length = 11 := by decide
  have hdecomp : markerLine (c0 :: n') ++ rest
      = "===SECTION:".toList ++ (' ' :: (c0 :: (n' ++ ("===".toList ++ rest)))) := by
    rw [markerLine_decomp]
    simp
  unfold matchAt
  rw [hdecomp, if_pos (by rw [List.isPrefixOf_iff_prefix]; exact List.prefix_append _ _)]
  rw [← h11, List.drop_left]
  have htw : (' ' :: (c0 :: (n' ++ ("===".toList ++ rest)))).takeWhile isPySpace
      = [' '] := by
    rw [List.takeWhile_cons, if_pos (by decide), List.takeWhile_cons,
      if_neg (by rw [hc0s]; exact Bool.false_ne_true)]
  have hdw : (' ' :: (c0 :: (n' ++ ("===".toList ++ rest)))).dropWhile isPySpace
      = c0 :: (n' ++ ("===".toList ++ rest)) := by
    rw [List.dropWhile_cons, if_pos (by decide), List.dropWhile_cons,
      if_neg (by rw [hc0s]; exact Bool.false_ne_true)]
  rw [htw, hdw]
  rw [show ([' '] : PyStr).reverse = [' '] from rfl]
  rw [startLoop, tryCapture, if_neg hc0n, capLoop_run hrest n' [c0] hnl' hlast']
  simp

theorem matchMarked_markerLine {n : PyStr} (h1 : n ≠ []) (h2 : pyStrip n = n)
    (h3 : '\n' ∉ n) {L : List PyStr} (hL : L ≠ []) (hLnl : ∀ a ∈ L, '\n' ∉ a) :
    matchMarked (markerLine n :: L) = some (n, L) := by
  cases L with
  | nil => cases hL rfl
  | cons b t =>
    unfold matchMarked
    rw [joinNL_cons_cons,
      matchAt_markerLine h1 h2 h3 (Or.inr ⟨joinNL (b :: t), rfl⟩)]
    dsimp only
    rw [splitNL_joinNL_of (b :: t) (by simp) hLnl]

theorem matchMarked_none {x : PyStr}
    (hx : ¬ (("===SECTION:".toList).isPrefixOf x = true)) (xs : List PyStr) :
    matchMarked (x :: xs) = none := by
  have hpre : ¬ (("===SECTION:".toList).isPrefixOf (joinNL (x :: xs)) = true) := by
    intro hcontra
    apply hx
    cases xs with
    | nil => rwa [joinNL_single] at hcontra
    | cons b t =>
      rw [joinNL_cons_cons] at hcontra
      exact isPrefixOf_append_line (by decide) (Or.inr ⟨joinNL (b :: t), rfl⟩) hcontra
  unfold matchMarked matchAt
  rw [if_neg hpre]

theorem splitMarkedLines_nil : splitMarkedLines [] = ([], []) := rfl

theorem splitMarkedLines_cons_skip {x : PyStr} {xs : List PyStr}
    (hx : matchMarked (x :: xs) = none) :
    splitMarkedLines (x :: xs)
      = (x :: (splitMarkedLines xs).1, (splitMarkedLines xs).2) := by
  unfold splitMarkedLines
  simp only [List.length_cons]
  rw [splitMarkedF, hx]

theorem splitMarkedLines_cons_match {x : PyStr} {xs : List PyStr} {n : PyStr}
    (hx : matchMarked (x :: xs) = some (n, xs)) :
    splitMarkedLines (x :: xs)
      = ([], (n, (splitMarkedLines xs).1) :: (splitMarkedLines xs).2) := by
  unfold splitMarkedLines
  simp only [List.length_cons]
  rw [splitMarkedF, hx]

theorem splitMarkedLines_append_skip :
    ∀ (A : List PyStr), (∀ x ∈ A, ¬ (("===SECTION:".toList).isPrefixOf x = true)) →
      ∀ (B : List PyStr),
      splitMarkedLines (A ++ B)
        = (A ++ (splitMarkedLines B).1, (splitMarkedLines B).2) := by
  intro A
  induction A with
  | nil => intro _ B; simp
  | cons x A' ih =>
    intro h B
    rw [List.cons_append,
      splitMarkedLines_cons_skip (matchMarked_none (h x (List.mem_cons_self _ _)) _),
      ih (fun y hy => h y (List.mem_cons_of_mem _ hy)) B, List.cons_append]

theorem splitMarkedLines_all_skip (A : List PyStr)
    (h : ∀ x ∈ A, ¬ (("===SECTION:".toList).isPrefixOf x = true)) :
    splitMarkedLines A = (A, []) := by
  have hres := splitMarkedLines_append_skip A h []
  rw [List.append_nil] at hres
  rw [splitMarkedLines_nil] at hres
  simpa using hres

theorem renderSections_cons_cons (p q : PyStr × PyStr) (t : List (PyStr × PyStr)) :
    renderSections (p :: q :: t) = renderSection p ++ '\n' :: renderSections (q :: t) := by
  unfold renderSections
  rw [List.map_cons, List.map_cons, joinNL_cons_cons]

theorem foldl_sectionStep_fresh :
    ∀ (l acc : List (PyStr × PyStr)),
      (∀ p ∈ l, p.1 ≠ [] ∧ p.2 ≠ []) →
      (∀ p ∈ l, acc.any (fun q => q.1 = p.1) = false) →
      (l.map Prod.fst).Nodup →
      l.foldl sectionStep acc = acc ++ l := by
  intro l
  induction l with
  | nil => intro acc _ _ _; simp
  | cons p t ih =>
    intro acc h1 h2 h3
    rw [List.foldl_cons]
    have hstep : sectionStep acc p = acc ++ [p] := by
      unfold sectionStep dictSet
      rw [if_pos (h1 p (List.mem_cons_self _ _)),
        if_neg (by rw [h2 p (List.mem_cons_self _ _)]; exact Bool.false_ne_true)]
    rw [hstep]
    rw [List.map_cons, List.nodup_cons] at h3
    have h2' : ∀ q ∈ t, (acc ++ [p]).any (fun r => r.1 = q.1) = false := by
      intro q hq
      rw [List.any_append, Bool.or_eq_false_iff]
      refine ⟨h2 q (List.mem_cons_of_mem _ hq), ?_⟩
      have hne : p.1 ≠ q.1 := fun e => h3.1 (e ▸ List.mem_map_of_mem Prod.fst hq)
      simp [hne]
    rw [ih (acc ++ [p]) (fun q hq => h1 q (List.mem_cons_of_mem _ hq)) h2' h3.2,
      List.append_assoc, List.singleton_append]

theorem splitNL_renderSections_single (p : PyStr × PyStr) (h : '\n' ∉ p.1) :
    splitNL (renderSections [p]) = markerLine p.1 :: splitNL p.2 := by
  show splitNL (markerLine p.1 ++ '\n' :: p.2) = _
  rw [splitNL_append_newline, splitNL_no_newline (markerLine_no_newline h)]
  rfl

theorem splitNL_renderSections_cons (p q : PyStr × PyStr) (t : List (PyStr × PyStr))
    (h : '\n' ∉ p.1) :
    splitNL (renderSections (p :: q :: t))
      = markerLine p.1 :: (splitNL p.2 ++ splitNL (renderSections (q :: t))) := by
  rw [renderSections_cons_cons]
  show splitNL ((markerLine p.1 ++ '\n' :: p.2) ++ '\n' :: renderSections (q :: t)) = _
  rw [List.append_assoc, List.cons_append, splitNL_append_newline,
    splitNL_no_newline (markerLine_no_newline h), splitNL_append_newline,
    List.singleton_append]

theorem splitMarkedLines_render :
    ∀ (l : List (PyStr × PyStr)), l ≠ [] →
      (∀ p ∈ l, goodName p.1 ∧ goodContent p.2) →
      splitMarkedLines (splitNL (renderSections l))
        = ([], l.map fun p => (p.1, splitNL p.2)) := by
  intro l
  induction l with
  | nil => intro h; cases h rfl
  | cons p t ih =>
    intro _ h
    obtain ⟨⟨hn1, hn2, hn3⟩, hc1, hc2, hc3⟩ := h p (List.mem_cons_self _ _)
    cases t with
    | nil =>
      rw [splitNL_renderSections_single p hn3,
        splitMarkedLines_cons_match
          (matchMarked_markerLine hn1 hn2 hn3 (splitNL_ne_nil p.2)
            (splitNL_mem_no_newline p.2)),
        splitMarkedLines_all_skip _ hc3]
      simp
    | cons q t2 =>
      rw [splitNL_renderSections_cons p q t2 hn3]
      have hrest_ne : splitNL p.2 ++ splitNL (renderSections (q :: t2)) ≠ [] :=
        fun hz => splitNL_ne_nil p.2 (List.append_eq_nil.mp hz).1
      have hrest_nl : ∀ a ∈ splitNL p.2 ++ splitNL (renderSections (q :: t2)),
          '\n' ∉ a := by
        intro a ha
        rcases List.mem_append.mp ha with hm | hm
        · exact splitNL_mem_no_newline _ a hm
        · exact splitNL_mem_no_newline _ a hm
      rw [splitMarkedLines_cons_match
          (matchMarked_markerLine hn1 hn2 hn3 hrest_ne hrest_nl),
        splitMarkedLines_append_skip (splitNL p.2) hc3 _,
        ih (by simp) (fun x hx => h x (List.mem_cons_of_mem _ hx))]
      simp

theorem sectionPairs_render (l : List (PyStr × PyStr))
    (h : ∀ p ∈ l, goodName p.1 ∧ goodContent p.2) :
    sectionPairs (renderSections l) = l := by
  cases l with
  | nil => decide
  | cons p t =>
    unfold sectionPairs
    rw [splitMarkedLines_render (p :: t) (by simp) h]
    dsimp only
    rw [List.map_map]
    conv_rhs => rw [← List.map_id (p :: t)]
    exact List.map_congr_left (fun q hq => by
      obtain ⟨⟨_, hqn2, _⟩, _, hqc2, _⟩ := h q hq
      show (pyStrip q.1, pyStrip (joinNL (splitNL q.2))) = q
      rw [joinNL_splitNL, hqn2, hqc2])

/-!  # Claim theorems -/

/-- C1 counterexample (to the claim's per-marker-line reading):
`SECTION_PATTERN` is compiled with `re.MULTILINE` and `\s` matches
`\n`, so a match of the pattern may span a line break.  On
`"===SECTION:\nA===\nHello"` no single line of the input matches the
pattern (`markerName?` is `none` on every line), yet `_split_sections`
returns `{"A": "Hello"}` — a section without any matching marker
line. -/
theorem c1_section_parser_cx :
    (∀ l ∈ splitNL ("===SECTION:\nA===\nHello".toList), markerName? l = none) ∧
    split_sections ("===SECTION:\nA===\nHello".toList)
      = [("A".toList, "Hello".toList)] := by decide

/-- C1 (amended): for every input text, the Section Parser returns a
mapping containing exactly those sections produced by the matches of the
section pattern — where, under `re.MULTILINE`, a match begins at a line
start and ends at a line end but its `\s*` parts may span line breaks,
so the marker need not lie on a single line — whose stripped name and
stripped content are both non-empty (every entry of the result comes
from such a matched section, and every such matched section produces an
entry), and no other entries; in particular on `===SECTION:
README.md===\nHello\n===SECTION: API_REFERENCE.md===\n\n` it returns
exactly `{"README.md": "Hello"}`. -/
theorem c1_section_parser_exact (raw : PyStr) :
    (∀ n c, dictGet (split_sections raw) n = some c →
      (n, c) ∈ sectionPairs raw ∧ n ≠ [] ∧ c ≠ []) ∧
    (∀ p ∈ sectionPairs raw, p.1 ≠ [] → p.2 ≠ [] →
      ∃ c, dictGet (split_sections raw) p.1 = some c) ∧
    split_sections
        ("===SECTION: README.md===\nHello\n===SECTION: API_REFERENCE.md===\n\n".toList)
      = [("README.md".toList, "Hello".toList)] := by
  refine ⟨?_, ?_, by decide⟩
  · intro n c h
    rcases foldl_sectionStep_sound _ [] n c h with h1 | h1
    · exact absurd h1 (by simp [dictGet])
    · exact h1
  · intro p hp h1 h2
    exact foldl_sectionStep_complete _ [] p.1 (Or.inr ⟨p.2, by simpa using hp, h1, h2⟩)

/-- Witness for C1 at the scenario input: the parser output contains
`README.md ↦ Hello`, and that entry comes from a matched section with
non-empty stripped name and content. -/
theorem c1_section_parser_exact_witness :
    ((("README.md".toList : PyStr), ("Hello".toList : PyStr)) ∈ sectionPairs
        ("===SECTION: README.md===\nHello\n===SECTION: API_REFERENCE.md===\n\n".toList) ∧
      ("README.md".toList : PyStr) ≠ [] ∧ ("Hello".toList : PyStr) ≠ []) :=
  (c1_section_parser_exact
    ("===SECTION: README.md===\nHello\n===SECTION: API_REFERENCE.md===\n\n".toList)).1
    _ _ (by decide)

/-- C10: when an input contains several markers with the same stripped
name, the entry stored for that name is the stripped content of the last
such marker (with non-empty content) in document order — later duplicate
sections silently overwrite earlier ones. -/
theorem c10_duplicate_sections_last_wins (raw n : PyStr) (h : n ≠ []) :
    dictGet (split_sections raw) n = lastContent n (sectionPairs raw) := by
  unfold split_sections lastContent
  rw [foldl_sectionStep_last _ [] n h]
  rfl

/-- Witness for C10: on an input with two `A` sections the parser keeps
the second content; the same holds when the input additionally ends with
a marker whose `\s*` spans a line break (`===SECTION:\nC===`), which
contributes its own `C` entry. -/
theorem c10_duplicate_sections_last_wins_witness :
    (dictGet (split_sections ("===SECTION: A===\nfirst\n===SECTION: A===\nsecond".toList))
        ("A".toList)
      = lastContent ("A".toList)
          (sectionPairs ("===SECTION: A===\nfirst\n===SECTION: A===\nsecond".toList)) ∧
    dictGet (split_sections ("===SECTION: A===\nfirst\n===SECTION: A===\nsecond".toList))
        ("A".toList)
      = some ("second".toList)) ∧
    (dictGet (split_sections
          ("===SECTION: A===\nfirst\n===SECTION: A===\nsecond\n===SECTION:\nC===\ntail".toList))
        ("A".toList)
      = lastContent ("A".toList) (sectionPairs
          ("===SECTION: A===\nfirst\n===SECTION: A===\nsecond\n===SECTION:\nC===\ntail".toList)) ∧
    dictGet (split_sections
          ("===SECTION: A===\nfirst\n===SECTION: A===\nsecond\n===SECTION:\nC===\ntail".toList))
        ("A".toList)
      = some ("second".toList) ∧
    dictGet (split_sections
          ("===SECTION: A===\nfirst\n===SECTION: A===\nsecond\n===SECTION:\nC===\ntail".toList))
        ("C".toList)
      = some ("tail".toList)) :=
  ⟨⟨c10_duplicate_sections_last_wins _ _ (by decide), by decide⟩,
   ⟨c10_duplicate_sections_last_wins _ _ (by decide), by decide, by decide⟩⟩

/-- C8 counterexample: the round trip is not the identity under the
claim's hypotheses alone.  The mapping `{"A": " x"}` has a non-empty
name, content that is non-empty after trimming, and no marker line in
the content, yet rendering and re-parsing strips the leading space of
the content and returns `{"A": "x"}`. -/
theorem c8_round_trip_cx :
    ("A".toList : PyStr) ≠ [] ∧ pyStrip (" x".toList) ≠ [] ∧
    (∀ l ∈ splitNL (" x".toList), markerName? l = none) ∧
    split_sections (renderSections [("A".toList, " x".toList)])
      ≠ [("A".toList, " x".toList)] := by decide

/-- C8 (amended): rendering a `DocumentSections` mapping into
`===SECTION: name===\ncontent` blocks and re-parsing is the identity
provided additionally that every name and every content is fixed by
trimming, every name is newline-free, and no line of any content begins
with the literal `===SECTION:` (with distinct names and non-empty names
and contents, as the claim already requires; "no content line matches
the pattern" is not enough, since under `re.MULTILINE` a line beginning
with the literal can seed a match whose `\s*` crosses the following
line breaks). -/
theorem c8_round_trip_amended {l : List (PyStr × PyStr)}
    (hnd : (l.map Prod.fst).Nodup)
    (h : ∀ p ∈ l, goodName p.1 ∧ goodContent p.2) :
    split_sections (renderSections l) = l := by
  unfold split_sections
  rw [sectionPairs_render l h]
  have hres := foldl_sectionStep_fresh l []
    (fun p hp => ⟨(h p hp).1.1, (h p hp).2.1⟩) (fun p _ => rfl) hnd
  simpa using hres

/-- Witness for C8 (amended) on a two-section mapping. -/
theorem c8_round_trip_amended_witness :
    split_sections (renderSections
        [("README.md".toList, "Hello".toList), ("API_REFERENCE.md".toList, "# API".toList)])
      = [("README.md".toList, "Hello".toList), ("API_REFERENCE.md".toList, "# API".toList)] :=
  c8_round_trip_amended (by decide) (by decide)

/-!  ## Shared State Store lemmas -/

theorem rowLookup_filter_like {rows : List (PyStr × Option PyStr)} {k : PyStr}
    (h : SharedMemory.likeAgentTraces k = false) :
    rowLookup (rows.filter (fun r => SharedMemory.likeAgentTraces r.1)) k = none := by
  induction rows with
  | nil => rfl
  | cons r rs ih =>
    rw [List.filter_cons]
    by_cases hr : SharedMemory.likeAgentTraces r.1 = true
    · rw [if_pos hr, rowLookup, if_neg (fun e => by rw [e, h] at hr; cases hr)]
      exact ih
    · rw [if_neg hr]
      exact ih

theorem rowLookup_map_set {rows : List (PyStr × Option PyStr)} {k : PyStr} (v : PyStr)
    (h : (rowLookup rows k).isSome = true) :
    rowLookup (rows.map (fun r => if r.1 = k then (k, some v) else r)) k
      = some (some v) := by
  induction rows with
  | nil => simp [rowLookup] at h
  | cons r rs ih =>
    by_cases hr : r.1 = k
    · rw [List.map_cons, if_pos hr, rowLookup, if_pos rfl]
    · rw [List.map_cons, if_neg hr, rowLookup, if_neg hr]
      rw [rowLookup, if_neg hr] at h
      exact ih h

theorem rowLookup_append_right {rows : List (PyStr × Option PyStr)} {k : PyStr}
    (h : rowLookup rows k = none) (e : List (PyStr × Option PyStr)) :
    rowLookup (rows ++ e) k = rowLookup e k := by
  induction rows with
  | nil => rfl
  | cons r rs ih =>
    rw [rowLookup] at h
    by_cases hr : r.1 = k
    · rw [if_pos hr] at h
      cases h
    · rw [if_neg hr] at h
      rw [List.cons_append, rowLookup, if_neg hr]
      exact ih h

/-- C5 counterexample: after `clear()` (the default call, as performed
at the start of `main.run`) a store that held an `agent_traces`-prefixed
key still holds it — `keys()` is not empty and `get` returns the stored
value instead of the default, contradicting "removes all entries". -/
theorem c5_clear_cx :
    SharedMemory.keys (SharedMemory.clear
        (SharedMemory.table [("agent_traces_run1".toList, some ("1".toList))]) true) ≠ [] ∧
    SharedMemory.get (SharedMemory.clear
        (SharedMemory.table [("agent_traces_run1".toList, some ("1".toList))]) true)
        ("agent_traces_run1".toList) ("fallback".toList) = "1".toList := by decide

/-- C5 (amended): `clear()` with the default `keep_traces=True` — the
call made at the start of each independent pipeline invocation — removes
every entry except those whose key matches the SQL pattern
`agent_traces%`, in which `_` is a single-character wildcard (`agent`,
any one character, `traces`, any suffix): for every key not matching
that pattern, `get` then returns the caller default and `keys()` omits
the key; `clear` with `keep_traces=False` removes all entries. -/
theorem c5_clear_amended (rows : List (PyStr × Option PyStr)) (k d : PyStr)
    (h : SharedMemory.likeAgentTraces k = false) :
    SharedMemory.get (SharedMemory.clear (SharedMemory.table rows) true) k d = d ∧
    k ∉ SharedMemory.keys (SharedMemory.clear (SharedMemory.table rows) true) ∧
    SharedMemory.keys (SharedMemory.clear (SharedMemory.table rows) false) = [] ∧
    (∀ k2 d2, SharedMemory.get (SharedMemory.clear (SharedMemory.table rows) false) k2 d2
      = d2) := by
  refine ⟨?_, ?_, by simp [SharedMemory.clear, SharedMemory.keys], ?_⟩
  · show SharedMemory.get (.table (if true = true then
        rows.filter (fun r => SharedMemory.likeAgentTraces r.1) else [])) k d = d
    rw [if_pos rfl]
    show (match rowLookup (rows.filter
        (fun r => SharedMemory.likeAgentTraces r.1)) k with
      | some (some v) => if v ≠ [] then v else d
      | _ => d) = d
    rw [rowLookup_filter_like h]
  · intro hk
    have hk1 : k ∈ (List.map Prod.fst (rows.filter
        (fun r => SharedMemory.likeAgentTraces r.1))).filter (fun x => x ≠ []) := by
      simpa [SharedMemory.clear, SharedMemory.keys] using hk
    have hk2 := List.mem_of_mem_filter hk1
    rcases List.mem_map.mp hk2 with ⟨r, hr, hrk⟩
    have hpred := List.of_mem_filter hr
    rw [hrk, h] at hpred
    cases hpred
  · intro k2 d2
    show SharedMemory.get (.table (if false = true then
        rows.filter (fun r => SharedMemory.likeAgentTraces r.1) else [])) k2 d2 = d2
    rw [if_neg (by simp)]
    rfl

/-- Witness for C5 (amended): a store holding `language` loses it on
`clear()` — `get` falls back to the default and the key is gone. -/
theorem c5_clear_amended_witness :
    SharedMemory.get (SharedMemory.clear
        (SharedMemory.table [("language".toList, some ("python".toList))]) true)
        ("language".toList) ("unknown".toList) = "unknown".toList ∧
    ("language".toList : PyStr) ∉ SharedMemory.keys (SharedMemory.clear
        (SharedMemory.table [("language".toList, some ("python".toList))]) true) ∧
    SharedMemory.keys (SharedMemory.clear
        (SharedMemory.table [("language".toList, some ("python".toList))]) false) = [] ∧
    (∀ k2 d2, SharedMemory.get (SharedMemory.clear
        (SharedMemory.table [("language".toList, some ("python".toList))]) false) k2 d2
      = d2) :=
  c5_clear_amended [("language".toList, some ("python".toList))]
    ("language".toList) ("unknown".toList) (by decide)

/-- C9: `get(key, default)` never raises: it is total and returns the
caller-supplied default when the backing store is unavailable, when the
query errors, and when no row (or no truthy value) is stored under the
key; when a value was stored under the key (by `set` on a reachable
table) it returns that stored value. -/
theorem c9_get_default (rows : List (PyStr × Option PyStr)) (k d v : PyStr) :
    SharedMemory.get SharedMemory.unavailable k d = d ∧
    SharedMemory.get SharedMemory.failing k d = d ∧
    (rowLookup rows k = none → SharedMemory.get (SharedMemory.table rows) k d = d) ∧
    (rowLookup rows k = some none → SharedMemory.get (SharedMemory.table rows) k d = d) ∧
    (v ≠ [] → SharedMemory.get (SharedMemory.set (SharedMemory.table rows) k v) k d = v) := by
  refine ⟨rfl, rfl, ?_, ?_, ?_⟩
  · intro h
    show (match rowLookup rows k with
      | some (some w) => if w ≠ [] then w else d
      | _ => d) = d
    rw [h]
  · intro h
    show (match rowLookup rows k with
      | some (some w) => if w ≠ [] then w else d
      | _ => d) = d
    rw [h]
  · intro hv
    show SharedMemory.get (.table (if (rowLookup rows k).isSome then
        rows.map (fun r => if r.1 = k then (k, some v) else r)
      else rows ++ [(k, some v)])) k d = v
    by_cases hsm : (rowLookup rows k).isSome = true
    · rw [if_pos hsm]
      show (match rowLookup (rows.map (fun r => if r.1 = k then (k, some v) else r)) k with
        | some (some w) => if w ≠ [] then w else d
        | _ => d) = v
      rw [rowLookup_map_set v hsm]
      simp [hv]
    · rw [if_neg hsm]
      have hnone : rowLookup rows k = none := by
        cases hcase : rowLookup rows k with
        | none => rfl
        | some w => rw [hcase] at hsm; simp at hsm
      show (match rowLookup (rows ++ [(k, some v)]) k with
        | some (some w) => if w ≠ [] then w else d
        | _ => d) = v
      rw [rowLookup_append_right hnone, rowLookup, if_pos rfl]
      simp [hv]

/-- Witness for C9: on an empty table, a missing `language` key returns
the default, and after `set` the stored value is returned. -/
theorem c9_get_default_witness :
    (SharedMemory.get (SharedMemory.table []) ("language".toList) ("unknown".toList)
      = "unknown".toList) ∧
    SharedMemory.get (SharedMemory.set (SharedMemory.table []) ("language".toList)
        ("python".toList)) ("language".toList) ("unknown".toList) = "python".toList :=
  ⟨(c9_get_default [] ("language".toList) ("unknown".toList) ("python".toList)).2.2.1 rfl,
    (c9_get_default [] ("language".toList) ("unknown".toList)
      ("python".toList)).2.2.2.2 (by decide)⟩

/-!  ## Evaluation Gate lemmas -/

theorem filter_success_sum (rs : List CriterionOutcome) :
    ((rs.filter (·.success)).map (·.score)).sum
      = (rs.map fun r => if r.success then r.score else 0).sum := by
  induction rs with
  | nil => rfl
  | cons r t ih =>
    rw [List.map_cons, List.sum_cons, List.filter_cons]
    by_cases hr : r.success = true
    · rw [if_pos hr, List.map_cons, List.sum_cons, ih, if_pos hr]
    · rw [if_neg hr, ih, if_neg hr, zero_add]

/-- C3 counterexample: with one successful criterion scoring 10 and the
other five failing, the computed mean is 10/6, not the mean over the
successfully scored criteria only (which would be 10): failed criteria
are excluded from the numerator but kept in the denominator. -/
theorem c3_mean_cx :
    average_score (evaluate_output
        (fun n => if n = "faithfulness" then some 10 else none) metricNames)
      ≠ specMeanSuccessOnly (evaluate_output
        (fun n => if n = "faithfulness" then some 10 else none) metricNames) := by
  have h : evaluate_output (fun n => if n = "faithfulness" then some 10 else none) metricNames
      = [⟨"faithfulness", 10, true⟩, ⟨"toxicity", 0, false⟩, ⟨"hallucination", 0, false⟩,
         ⟨"answer_relevancy", 0, false⟩, ⟨"task_completion", 0, false⟩,
         ⟨"execution_efficiency", 0, false⟩] := by rfl
  rw [h]
  simp only [average_score, specMeanSuccessOnly, List.filter, List.isEmpty, List.map,
    List.sum_cons, List.sum_nil, List.length]
  norm_num

/-- C3 (amended): a failed criterion contributes nothing to the
numerator but still counts in the denominator — the mean equals the sum
over criteria of (score if successful, else 0) divided by the number of
all criteria; when every criterion fails (or none exist) the mean is 0.0
rather than an error, and the evaluation is total, producing one record
per criterion, so a scoring failure never aborts the pipeline. -/
theorem c3_mean_amended (scorer : String → Option ℚ) (names : List String) :
    (evaluate_output scorer names).length = names.length ∧
    ((∀ r ∈ evaluate_output scorer names, r.success = false) →
      average_score (evaluate_output scorer names) = 0) ∧
    (names ≠ [] →
      average_score (evaluate_output scorer names)
        = ((evaluate_output scorer names).map fun r =>
            if r.success then r.score else 0).sum / (names.length : ℚ)) := by
  have hlen : (evaluate_output scorer names).length = names.length := by
    simp [evaluate_output]
  refine ⟨hlen, ?_, ?_⟩
  · intro hall
    unfold average_score
    by_cases he : (evaluate_output scorer names).isEmpty = true
    · rw [if_pos he]
    · rw [if_neg he]
      have hfil : (evaluate_output scorer names).filter (·.success) = [] := by
        rw [List.filter_eq_nil_iff]
        intro r hr
        simp [hall r hr]
      rw [hfil]
      simp
  · intro hne
    unfold average_score
    have hnonempty : ¬((evaluate_output scorer names).isEmpty = true) := by
      rw [List.isEmpty_iff]
      unfold evaluate_output
      rw [List.map_eq_nil_iff]
      exact hne
    rw [if_neg hnonempty, filter_success_sum, hlen]

/-- Witness for C3 (amended): when every criterion fails the mean is 0,
and the all-criteria denominator identity holds at that input. -/
theorem c3_mean_amended_witness :
    average_score (evaluate_output (fun _ => none) metricNames) = 0 ∧
    average_score (evaluate_output (fun _ => none) metricNames)
      = ((evaluate_output (fun _ => none) metricNames).map fun r =>
          if r.success then r.score else 0).sum / (metricNames.length : ℚ) :=
  ⟨(c3_mean_amended (fun _ => none) metricNames).2.1 (by decide),
    (c3_mean_amended (fun _ => none) metricNames).2.2 (by decide)⟩

/-!  ## Retry Controller lemmas -/

theorem retryLoop_inv (thr : ℚ) (maxA : ℕ) (next : ℕ → AttemptResult) :
    ∀ (fuel : ℕ) (s : RetryState),
      (∀ x ∈ s.hist, x.2 ≤ s.bestScore) →
      (s.bestOut, s.bestScore) ∈ s.hist →
      (s.raw, s.avg) ∈ s.hist →
      ((∀ x ∈ (retryLoop thr maxA next fuel s).hist,
          x.2 ≤ (retryLoop thr maxA next fuel s).bestScore) ∧
        ((retryLoop thr maxA next fuel s).bestOut,
            (retryLoop thr maxA next fuel s).bestScore)
          ∈ (retryLoop thr maxA next fuel s).hist ∧
        ((retryLoop thr maxA next fuel s).raw, (retryLoop thr maxA next fuel s).avg)
          ∈ (retryLoop thr maxA next fuel s).hist ∧
        ∀ x ∈ s.hist, x ∈ (retryLoop thr maxA next fuel s).hist) := by
  intro fuel
  induction fuel with
  | zero => intro s h1 h2 h3; exact ⟨h1, h2, h3, fun x hx => hx⟩
  | succ n ih =>
    intro s h1 h2 h3
    rw [retryLoop]
    by_cases hcond : s.avg < thr ∧ s.attempt < maxA
    · rw [if_pos hcond]
      cases hnext : next (s.attempt + 1) with
      | crash => exact ⟨h1, h2, h3, fun x hx => hx⟩
      | ok t sc =>
        have hstep1 : ∀ x ∈ (retryStep s t sc).hist, x.2 ≤ (retryStep s t sc).bestScore := by
          intro x hx
          unfold retryStep at hx ⊢
          dsimp only at hx ⊢
          rcases List.mem_append.mp hx with hx1 | hx1
          · have hle := h1 x hx1
            by_cases hgt : sc > s.bestScore
            · rw [if_pos hgt]
              exact le_trans hle (le_of_lt hgt)
            · rw [if_neg hgt]
              exact hle
          · have hx2 : x = (t, sc) := by simpa using hx1
            subst hx2
            by_cases hgt : sc > s.bestScore
            · rw [if_pos hgt]
            · rw [if_neg hgt]
              exact le_of_not_lt hgt
        have hstep2 : ((retryStep s t sc).bestOut, (retryStep s t sc).bestScore)
            ∈ (retryStep s t sc).hist := by
          unfold retryStep
          dsimp only
          by_cases hgt : sc > s.bestScore
          · rw [if_pos hgt, if_pos hgt]
            exact List.mem_append.mpr (Or.inr (List.mem_singleton.mpr rfl))
          · rw [if_neg hgt, if_neg hgt]
            exact List.mem_append.mpr (Or.inl h2)
        have hstep3 : ((retryStep s t sc).raw, (retryStep s t sc).avg)
            ∈ (retryStep s t sc).hist := by
          unfold retryStep
          dsimp only
          exact List.mem_append.mpr (Or.inr (List.mem_singleton.mpr rfl))
        obtain ⟨g1, g2, g3, g4⟩ := ih (retryStep s t sc) hstep1 hstep2 hstep3
        refine ⟨g1, g2, g3, fun x hx => g4 x ?_⟩
        unfold retryStep
        dsimp only
        exact List.mem_append.mpr (Or.inl hx)
    · rw [if_neg hcond]
      exact ⟨h1, h2, h3, fun x hx => hx⟩

/-- C2 counterexample: with threshold 6 and two attempts both scoring 5,
texts "A" then "B", both attempts are recorded and the highest recorded
score (5) is attained first by attempt 1 ("A"); but the final selection
`if best_score > avg_score` is strict, so the returned text is attempt
2's "B" — on a tie the controller returns the last attempt, not the
earliest best-scoring one. -/
theorem c2_best_attempt_cx :
    (retryRun 6 2 ("A", 5) (fun _ => AttemptResult.ok "B" 5)).hist
        = [("A", 5), ("B", 5)] ∧
    finalizeBest (retryRun 6 2 ("A", 5) (fun _ => AttemptResult.ok "B" 5)) = ("B", 5) ∧
    ("B" : String) ≠ "A" := by decide

/-- C2 (amended): the Retry Controller returns a recorded attempt whose
score is the highest recorded — never lower than any previously recorded
attempt's score in the same run, also when a retry's crew execution
raises and the loop stops early; on a tie between the final evaluated
attempt and an earlier attempt, however, the final attempt's text is the
one returned (the strict `>` selections keep the earliest attempt only
while tracking, not in the post-loop selection). -/
theorem c2_best_attempt_amended (thr : ℚ) (maxA : ℕ) (first : String × ℚ)
    (next : ℕ → AttemptResult) :
    (∀ x ∈ (retryRun thr maxA first next).hist,
      x.2 ≤ (finalizeBest (retryRun thr maxA first next)).2) ∧
    ((finalizeBest (retryRun thr maxA first next)).1,
        (finalizeBest (retryRun thr maxA first next)).2)
      ∈ (retryRun thr maxA first next).hist ∧
    (first.1, first.2) ∈ (retryRun thr maxA first next).hist := by
  have hinit1 : ∀ x ∈ (initState first.1 first.2).hist, x.2 ≤ (initState first.1 first.2).bestScore := by
    intro x hx
    have hx2 : x = (first.1, first.2) := by simpa [initState] using hx
    subst hx2
    exact le_refl _
  have hinit2 : ((initState first.1 first.2).bestOut, (initState first.1 first.2).bestScore)
      ∈ (initState first.1 first.2).hist := by simp [initState]
  have hinit3 : ((initState first.1 first.2).raw, (initState first.1 first.2).avg)
      ∈ (initState first.1 first.2).hist := by simp [initState]
  obtain ⟨g1, g2, g3, g4⟩ :=
    retryLoop_inv thr maxA next maxA (initState first.1 first.2) hinit1 hinit2 hinit3
  have hfirst : (first.1, first.2) ∈ (retryRun thr maxA first next).hist :=
    g4 (first.1, first.2) (by simp [initState])
  unfold finalizeBest
  by_cases hgt : (retryRun thr maxA first next).bestScore > (retryRun thr maxA first next).avg
  · rw [if_pos hgt]
    exact ⟨g1, g2, hfirst⟩
  · rw [if_neg hgt]
    have havg : (retryRun thr maxA first next).bestScore
        ≤ (retryRun thr maxA first next).avg := le_of_not_lt hgt
    refine ⟨?_, g3, hfirst⟩
    intro x hx
    exact le_trans (g1 x hx) havg

/-- Witness for C2 (amended) on a run whose retry improves the score:
the first attempt (score 5) never exceeds the returned score, and the
returned pair is a recorded attempt. -/
theorem c2_best_attempt_amended_witness :
    (("A", (5 : ℚ)) ∈ (retryRun 8 2 ("A", 5) (fun _ => AttemptResult.ok "B" 7)).hist →
      (("A", (5 : ℚ)).2 ≤ (finalizeBest (retryRun 8 2 ("A", 5)
        (fun _ => AttemptResult.ok "B" 7))).2)) ∧
    ((finalizeBest (retryRun 8 2 ("A", 5) (fun _ => AttemptResult.ok "B" 7))).1,
        (finalizeBest (retryRun 8 2 ("A", 5) (fun _ => AttemptResult.ok "B" 7))).2)
      ∈ (retryRun 8 2 ("A", 5) (fun _ => AttemptResult.ok "B" 7)).hist :=
  ⟨(c2_best_attempt_amended 8 2 ("A", 5) (fun _ => AttemptResult.ok "B" 7)).1 ("A", 5),
    (c2_best_attempt_amended 8 2 ("A", 5) (fun _ => AttemptResult.ok "B" 7)).2.1⟩

/-- C7: with `max_attempts = 1` the retry loop body never runs — the
outcome equals the initial single-evaluation state for every executor
oracle, so the Task Graph Executor is never invoked a second time and
`attempts_used = 1`; more generally a further attempt starts only when
the mean is strictly below the threshold, so a mean exactly equal to the
threshold passes with `attempts_used = 1` and the first attempt's text
and score are returned. -/
theorem c7_max_attempts_one (thr : ℚ) (first : String × ℚ) (next : ℕ → AttemptResult)
    (maxA : ℕ) :
    retryRun thr 1 first next = initState first.1 first.2 ∧
    (thr ≤ first.2 → retryRun thr maxA first next = initState first.1 first.2) ∧
    (retryRun thr 1 first next).attempt = 1 ∧
    finalizeBest (initState first.1 first.2) = (first.1, first.2) := by
  have h1 : retryRun thr 1 first next = initState first.1 first.2 := by
    unfold retryRun
    rw [retryLoop]
    rw [if_neg (fun h => absurd h.2 (lt_irrefl 1))]
  refine ⟨h1, ?_, by rw [h1]; rfl, ?_⟩
  · intro hpass
    unfold retryRun
    cases maxA with
    | zero => rfl
    | succ m =>
      rw [retryLoop]
      rw [if_neg (fun h => absurd h.1 (not_lt_of_le hpass))]
  · unfold finalizeBest initState
    rw [if_neg (lt_irrefl _)]

/-- Witness for C7, the spec scenario: threshold 6, two attempts
allowed, first mean exactly 6 — passed with one attempt, no second run
regardless of what a retry would return. -/
theorem c7_max_attempts_one_witness :
    retryRun 6 2 ("A", 6) (fun _ => AttemptResult.ok "B" 9) = initState "A" 6 ∧
    retryRun 6 1 ("A", 6) (fun _ => AttemptResult.ok "B" 9) = initState "A" 6 ∧
    finalizeBest (initState "A" 6) = ("A", 6) :=
  ⟨(c7_max_attempts_one 6 ("A", 6) (fun _ => AttemptResult.ok "B" 9) 2).2.1 (by decide),
    (c7_max_attempts_one 6 ("A", 6) (fun _ => AttemptResult.ok "B" 9) 2).1,
    (c7_max_attempts_one 6 ("A", 6) (fun _ => AttemptResult.ok "B" 9) 2).2.2.2⟩

/-!  ## Human Approval State Machine: claim C6 -/

/-- C6: whenever the interactive approval machine returns an
`EDIT_REQUESTED` result — through any sequence of operator inputs,
re-prompts on invalid choices and re-entries after empty feedback — the
result carries feedback that is non-empty after trimming; empty or
whitespace-only collected feedback never escapes the `AwaitingDecision`
loop. -/
theorem c6_edit_feedback_nonempty (inputs : List PyStr) (r : HumanApprovalResult)
    (rest : List PyStr) (h : request_approval false inputs = some (r, rest))
    (hst : r.status = ApprovalStatus.editRequested) :
    ∃ fb, r.feedback = some fb ∧ pyStrip fb ≠ [] := by
  have main : ∀ (fuel : ℕ) (inputs2 : List PyStr) (r2 : HumanApprovalResult)
      (rest2 : List PyStr), approvalLoopFuel fuel inputs2 = some (r2, rest2) →
      r2.status = ApprovalStatus.editRequested →
      ∃ fb, r2.feedback = some fb ∧ pyStrip fb ≠ [] := by
    intro fuel
    induction fuel with
    | zero =>
      intro inputs2 r2 rest2 h2 _
      rw [approvalLoopFuel] at h2
      cases h2
    | succ n ih =>
      intro inputs2 r2 rest2 h2 hst2
      cases inputs2 with
      | nil =>
        rw [approvalLoopFuel] at h2
        cases h2
      | cons x xs =>
        rw [approvalLoopFuel] at h2
        dsimp only at h2
        by_cases hA : pyUpper (if pyStrip x = [] then "A".toList else pyStrip x)
              = "A".toList ∨
            pyUpper (if pyStrip x = [] then "A".toList else pyStrip x) = "APPROVE".toList
        · rw [if_pos hA] at h2
          injection h2 with h3
          rw [Prod.ext_iff] at h3
          dsimp only at h3
          rw [← h3.1] at hst2
          cases hst2
        · rw [if_neg hA] at h2
          by_cases hE : pyUpper (if pyStrip x = [] then "A".toList else pyStrip x)
                = "E".toList ∨
              pyUpper (if pyStrip x = [] then "A".toList else pyStrip x) = "EDIT".toList
          · rw [if_pos hE] at h2
            by_cases hfb : pyStrip (joinNL (collectFeedback xs []).1) = []
            · rw [if_pos hfb] at h2
              exact ih _ _ _ h2 hst2
            · rw [if_neg hfb] at h2
              injection h2 with h3
              rw [Prod.ext_iff] at h3
              dsimp only at h3
              refine ⟨pyStrip (joinNL (collectFeedback xs []).1), ?_,
                pyStrip_pyStrip_ne_nil hfb⟩
              rw [← h3.1]
          · rw [if_neg hE] at h2
            exact ih _ _ _ h2 hst2
  unfold request_approval at h
  rw [if_neg Bool.false_ne_true] at h
  exact main _ _ _ _ h hst

/-- Witness for C6: on the operator session `E`, `add install steps`,
blank, blank, the machine returns `EDIT_REQUESTED` and the theorem
yields its non-empty trimmed feedback. -/
theorem c6_edit_feedback_nonempty_witness :
    ∃ fb, (HumanApprovalResult.mk ApprovalStatus.editRequested
        (some ("add install steps".toList))).feedback = some fb ∧ pyStrip fb ≠ [] :=
  c6_edit_feedback_nonempty
    ["E".toList, "add install steps".toList, [], []]
    ⟨ApprovalStatus.editRequested, some ("add install steps".toList)⟩ []
    (by decide) rfl

/-!  ## Approval / edit phase of `main.run`: claim C4 -/

/-- C4: whenever `request_approval` returns `EDIT_REQUESTED`, the run
performs exactly one edit-crew execution with the feedback injected into
its inputs, re-extracts the sections from that run's output and
finalizes them unconditionally, with no second approval prompt
(`editRuns = 1`, `approvalCalls = 1`); the edit crew variant skips the
indexing task `code_analysis_task` and keeps every downstream task. -/
theorem c4_edit_iteration_once (opInputs : List PyStr) (sections0 : List (PyStr × PyStr))
    (raw0 : PyStr) (editRun : PyStr → PyStr) (fallback : List (PyStr × PyStr))
    (r : HumanApprovalResult) (rest : List PyStr)
    (h : request_approval false opInputs = some (r, rest))
    (hst : r.status = ApprovalStatus.editRequested) :
    hitlPhase opInputs sections0 raw0 editRun fallback
      = some ⟨extract_sections fallback (editRun (r.feedback.getD [])),
          editRun (r.feedback.getD []), 1, 1⟩ ∧
    "code_analysis_task" ∉ editCrewTasks ∧
    (∀ t ∈ fullCrewTasks, t ≠ "code_analysis_task" → t ∈ editCrewTasks) := by
  refine ⟨?_, by decide, by decide⟩
  unfold hitlPhase
  rw [h]
  cases r with
  | mk st fb =>
    cases st with
    | approved => cases hst
    | editRequested => rfl

/-- Witness for C4: the spec scenario — operator requests an edit with
feedback `add install steps`; the phase reports exactly one edit run and
exactly one approval call. -/
theorem c4_edit_iteration_once_witness :
    (hitlPhase ["E".toList, "add install steps".toList, [], []] [] []
        (fun _ => "===SECTION: README.md===\nUpdated".toList) []).map
      (fun res => (res.editRuns, res.approvalCalls)) = some (1, 1) := by
  have h : request_approval false ["E".toList, "add install steps".toList, [], []]
      = some (⟨ApprovalStatus.editRequested, some ("add install steps".toList)⟩, []) := by
    decide
  rw [(c4_edit_iteration_once ["E".toList, "add install steps".toList, [], []] [] []
    (fun _ => "===SECTION: README.md===\nUpdated".toList) []
    ⟨ApprovalStatus.editRequested, some ("add install steps".toList)⟩ [] h rfl).1]
  rfl

end DocGen
